import Mathlib

/-!
Shallow embedding of the `landfill` library (persistent on-disk data
structures) and verification of its specification claims.

The embedding translates the Rust sources into executable Lean functions:

* `DiskBytes.lane_size`, `DiskBytes.lane_nr_and_ofs`,
  `DiskBytes.lane_nr_and_ofs_slow`, `DiskBytes.find_space_for` —
  src/src/storage/bytes.rs
* `DiskBytes.read`, `DiskBytes.write_bytes` — the byte-arena memory model of
  src/src/storage/bytes.rs (`read` / `request_write` plus the caller's copy)
* `Journal.*` — src/src/storage/journal.rs (disk and ephemeral variants)
* `JournalOld.update_entry` — src/src/journal.rs
* `AppendOnly.*` — src/src/storage/appendonly.rs
* `RandomAccess.*` — src/src/storage/randomaccess.rs
* `SearchPattern.*` — src/src/structures/smash.rs
* `LandfillDisk.map_file_create` — src/src/disk/mod.rs
* `LandfillOld.map_file_inner` — src/src/landfill.rs

Machine integers (u64/usize) are modelled by `Nat`; all the verified claims
stay far below 2^64, and each place where Rust wrapping or panicking
arithmetic could diverge from `Nat` is noted next to the definition.
The seahash-based checksums are opaque deterministic functions and are
modelled by an explicit function parameter `σ : Nat → Nat`.
-/

namespace DiskBytes

/-- Number of lanes of the segmented byte arena (src/src/storage/bytes.rs,
`N_LANES`). -/
def N_LANES : Nat := 32

/-- Size in bytes of lane `lane`: `INIT_SIZE * 2u64.pow(lane)`
(src/src/storage/bytes.rs, `lane_size`). -/
def lane_size (INIT lane : Nat) : Nat := INIT * 2 ^ lane

/-- Closed-form decomposition of a logical offset into
`(lane number, offset inside the lane)` (src/src/storage/bytes.rs,
`lane_nr_and_ofs`).  On the 64-bit platform the source targets,
`usize_bits - i.leading_zeros() - 1` is exactly `Nat.log2 i` for `i > 0`,
and `i = offset / INIT_SIZE + 1 > 0` always holds. -/
def lane_nr_and_ofs (INIT offset : Nat) : Nat × Nat :=
  let i := offset / INIT + 1
  let lane_nr := Nat.log2 i
  (lane_nr, offset - (2 ^ lane_nr - 1) * INIT)

/-- `LaneAt INIT n r o` states that logical offset `o` decomposes as inner
offset `r` into lane `n`: lane `n` starts at byte `(2^n - 1) * INIT` and has
size `INIT * 2^n`. -/
def LaneAt (INIT n r o : Nat) : Prop :=
  o = r + (2 ^ n - 1) * INIT ∧ r < INIT * 2 ^ n

theorem lane_nr_and_ofs_laneAt (INIT : Nat) (hI : 0 < INIT) (o : Nat) :
    LaneAt INIT (lane_nr_and_ofs INIT o).1 (lane_nr_and_ofs INIT o).2 o := by
  have h1 : 1 < 2 := by omega
  have hlog : Nat.log2 (o / INIT + 1) = Nat.log 2 (o / INIT + 1) :=
    Nat.log2_eq_log_two
  set L := Nat.log2 (o / INIT + 1) with hL
  have hge : 2 ^ L ≤ o / INIT + 1 := by
    rw [hlog]
    exact Nat.pow_log_le_self 2 (Nat.succ_ne_zero _)
  have hlt : o / INIT + 1 < 2 ^ (L + 1) := by
    rw [hlog]
    exact Nat.lt_pow_succ_log_self h1 _
  have hlow : (2 ^ L - 1) * INIT ≤ o := by
    have h2 : 2 ^ L - 1 ≤ o / INIT := by omega
    calc (2 ^ L - 1) * INIT ≤ o / INIT * INIT := Nat.mul_le_mul_right _ h2
      _ ≤ o := Nat.div_mul_le_self o INIT
  have hhigh : o < (2 ^ (L + 1) - 1) * INIT := by
    have h2 : o / INIT + 1 ≤ 2 ^ (L + 1) - 1 := by omega
    have h3 : o < (o / INIT + 1) * INIT :=
      (Nat.div_lt_iff_lt_mul hI).mp (Nat.lt_succ_self _)
    calc o < (o / INIT + 1) * INIT := h3
      _ ≤ (2 ^ (L + 1) - 1) * INIT := Nat.mul_le_mul_right _ h2
  constructor
  · show o = o - (2 ^ L - 1) * INIT + (2 ^ L - 1) * INIT
    omega
  · show o - (2 ^ L - 1) * INIT < INIT * 2 ^ L
    have hpow : 2 ^ (L + 1) = 2 ^ L * 2 := by ring
    have hp : 0 < 2 ^ L := Nat.pos_pow_of_pos L (by omega)
    have : (2 ^ (L + 1) - 1) * INIT = (2 ^ L - 1) * INIT + INIT * 2 ^ L := by
      rw [hpow]
      have : (2 ^ L * 2 - 1) = (2 ^ L - 1) + 2 ^ L := by omega
      rw [this, Nat.add_mul]
      ring_nf
    omega

theorem laneAt_unique (INIT : Nat) {n₁ r₁ n₂ r₂ o : Nat}
    (h₁ : LaneAt INIT n₁ r₁ o) (h₂ : LaneAt INIT n₂ r₂ o) :
    n₁ = n₂ ∧ r₁ = r₂ := by
  obtain ⟨e₁, b₁⟩ := h₁
  obtain ⟨e₂, b₂⟩ := h₂
  have key : ∀ m₁ s₁ m₂ s₂ : Nat,
      o = s₁ + (2 ^ m₁ - 1) * INIT → s₁ < INIT * 2 ^ m₁ →
      o = s₂ + (2 ^ m₂ - 1) * INIT → ¬ m₁ < m₂ := by
    intro m₁ s₁ m₂ s₂ he₁ hb₁ he₂ hlt
    have hm : m₁ + 1 ≤ m₂ := hlt
    have hple : (2 : Nat) ^ (m₁ + 1) ≤ 2 ^ m₂ :=
      Nat.pow_le_pow_right (by omega) hm
    have h2 : o < (2 ^ (m₁ + 1) - 1) * INIT := by
      have hpow : (2 : Nat) ^ (m₁ + 1) = 2 ^ m₁ * 2 := by ring
      have hp : 0 < (2 : Nat) ^ m₁ := Nat.pos_pow_of_pos _ (by omega)
      have hsum : (2 ^ (m₁ + 1) - 1) * INIT
          = (2 ^ m₁ - 1) * INIT + INIT * 2 ^ m₁ := by
        rw [hpow]
        have : (2 ^ m₁ * 2 - 1) = (2 ^ m₁ - 1) + 2 ^ m₁ := by omega
        rw [this, Nat.add_mul]
        ring_nf
      omega
    have h3 : (2 ^ (m₁ + 1) - 1) * INIT ≤ (2 ^ m₂ - 1) * INIT := by
      have : (2 : Nat) ^ (m₁ + 1) - 1 ≤ 2 ^ m₂ - 1 := by omega
      exact Nat.mul_le_mul_right _ this
    omega
  have hn : n₁ = n₂ := by
    rcases Nat.lt_trichotomy n₁ n₂ with h | h | h
    · exact absurd h (key n₁ r₁ n₂ r₂ e₁ b₁ e₂)
    · exact h
    · exact absurd h (key n₂ r₂ n₁ r₁ e₂ b₂ e₁)
  refine ⟨hn, ?_⟩
  subst hn
  omega

theorem lane_nr_and_ofs_eq (INIT : Nat) (hI : 0 < INIT) {n r o : Nat}
    (h : LaneAt INIT n r o) : lane_nr_and_ofs INIT o = (n, r) := by
  have h0 := lane_nr_and_ofs_laneAt INIT hI o
  have := laneAt_unique INIT h0 h
  obtain ⟨h1, h2⟩ := this
  have : lane_nr_and_ofs INIT o
      = ((lane_nr_and_ofs INIT o).1, (lane_nr_and_ofs INIT o).2) := rfl
  rw [this, h1, h2]

/-- One step of the iterative loop of
`lane_nr_and_ofs_slow_but_obviously_correct` (src/src/storage/bytes.rs):
while `lane_size(lane_nr) ≤ offset`, subtract the lane size and move to the
next lane.  The loop only terminates for `INIT > 0` (with `INIT = 0` the Rust
code would also diverge), hence the positivity argument. -/
def lane_nr_and_ofs_slow_aux (INIT : Nat) (hI : 0 < INIT)
    (lane_nr offset : Nat) : Nat × Nat :=
  if lane_size INIT lane_nr ≤ offset then
    lane_nr_and_ofs_slow_aux INIT hI (lane_nr + 1)
      (offset - lane_size INIT lane_nr)
  else
    (lane_nr, offset)
termination_by offset
decreasing_by
  have hp : 0 < lane_size INIT lane_nr := by
    have : 0 < 2 ^ lane_nr := Nat.pos_pow_of_pos _ (by omega)
    simp only [lane_size]
    exact Nat.mul_pos hI this
  omega

/-- The iterative decomposition
(src/src/storage/bytes.rs, `lane_nr_and_ofs_slow_but_obviously_correct`). -/
def lane_nr_and_ofs_slow (INIT : Nat) (hI : 0 < INIT) (offset : Nat) :
    Nat × Nat :=
  lane_nr_and_ofs_slow_aux INIT hI 0 offset

theorem lane_nr_and_ofs_slow_aux_spec (INIT : Nat) (hI : 0 < INIT) :
    ∀ offset lane_nr,
      lane_nr ≤ (lane_nr_and_ofs_slow_aux INIT hI lane_nr offset).1 ∧
      offset = (lane_nr_and_ofs_slow_aux INIT hI lane_nr offset).2 +
        (2 ^ (lane_nr_and_ofs_slow_aux INIT hI lane_nr offset).1 -
          2 ^ lane_nr) * INIT ∧
      (lane_nr_and_ofs_slow_aux INIT hI lane_nr offset).2 <
        INIT * 2 ^ (lane_nr_and_ofs_slow_aux INIT hI lane_nr offset).1 := by
  intro offset
  induction offset using Nat.strong_induction_on with
  | _ offset ih =>
    intro lane_nr
    rw [lane_nr_and_ofs_slow_aux]
    by_cases h : lane_size INIT lane_nr ≤ offset
    · simp only [h, if_true]
      have hp : 0 < lane_size INIT lane_nr := by
        have : 0 < 2 ^ lane_nr := Nat.pos_pow_of_pos _ (by omega)
        simp only [lane_size]
        exact Nat.mul_pos hI this
      have hlt : offset - lane_size INIT lane_nr < offset := by omega
      obtain ⟨ha, hb, hc⟩ := ih _ hlt (lane_nr + 1)
      set q := lane_nr_and_ofs_slow_aux INIT hI (lane_nr + 1)
        (offset - lane_size INIT lane_nr)
      refine ⟨by omega, ?_, hc⟩
      have hpowle : 2 ^ (lane_nr + 1) ≤ 2 ^ q.1 :=
        Nat.pow_le_pow_right (by omega) ha
      have hsz : lane_size INIT lane_nr = INIT * 2 ^ lane_nr := rfl
      have hstep : (2 ^ q.1 - 2 ^ lane_nr) * INIT
          = (2 ^ q.1 - 2 ^ (lane_nr + 1)) * INIT + INIT * 2 ^ lane_nr := by
        have h2 : (2 : Nat) ^ (lane_nr + 1) = 2 ^ lane_nr * 2 := by ring
        have h3 : (2 ^ q.1 - 2 ^ lane_nr)
            = (2 ^ q.1 - 2 ^ (lane_nr + 1)) + 2 ^ lane_nr := by omega
        rw [h3, Nat.add_mul]
        ring_nf
      omega
    · simp only [h, if_false]
      have h2 : offset < INIT * 2 ^ lane_nr := by
        simp only [lane_size] at h
        omega
      exact ⟨Nat.le_refl _, by simp, h2⟩

/-- The iterative decomposition satisfies the `LaneAt` characterization. -/
theorem lane_nr_and_ofs_slow_laneAt (INIT : Nat) (hI : 0 < INIT)
    (offset : Nat) :
    LaneAt INIT (lane_nr_and_ofs_slow INIT hI offset).1
      (lane_nr_and_ofs_slow INIT hI offset).2 offset := by
  obtain ⟨_, hb, hc⟩ := lane_nr_and_ofs_slow_aux_spec INIT hI offset 0
  exact ⟨by simpa using hb, hc⟩

/-- For every `INIT > 0` the closed-form decomposition agrees with the
iterative one, at every offset. -/
theorem lane_nr_and_ofs_eq_slow (INIT : Nat) (hI : 0 < INIT) (offset : Nat) :
    lane_nr_and_ofs INIT offset = lane_nr_and_ofs_slow INIT hI offset := by
  have h := lane_nr_and_ofs_slow_laneAt INIT hI offset
  rw [lane_nr_and_ofs_eq INIT hI h]

/-- Offsets inside the same lane decompose with the same lane number. -/
theorem lane_nr_and_ofs_add (INIT : Nat) (hI : 0 < INIT) {n r o : Nat}
    (h : LaneAt INIT n r o) {k : Nat} (hk : r + k < INIT * 2 ^ n) :
    lane_nr_and_ofs INIT (o + k) = (n, r + k) := by
  apply lane_nr_and_ofs_eq INIT hI
  obtain ⟨he, hb⟩ := h
  exact ⟨by omega, hk⟩

/-- Skipping over the rest of the current lane lands exactly at the start of
the next lane. -/
theorem lane_nr_and_ofs_next_lane (INIT : Nat) (hI : 0 < INIT) (offset : Nat) :
    lane_nr_and_ofs INIT
        (offset + (lane_size INIT (lane_nr_and_ofs INIT offset).1 -
          (lane_nr_and_ofs INIT offset).2))
      = ((lane_nr_and_ofs INIT offset).1 + 1, 0) := by
  obtain ⟨he, hb⟩ := lane_nr_and_ofs_laneAt INIT hI offset
  set n := (lane_nr_and_ofs INIT offset).1
  set r := (lane_nr_and_ofs INIT offset).2
  apply lane_nr_and_ofs_eq INIT hI
  have hpow : (2 : Nat) ^ (n + 1) = 2 ^ n * 2 := by ring
  have hp : 0 < (2 : Nat) ^ n := Nat.pos_pow_of_pos _ (by omega)
  have hsz : lane_size INIT n = INIT * 2 ^ n := rfl
  constructor
  · have : (2 ^ (n + 1) - 1) * INIT = (2 ^ n - 1) * INIT + INIT * 2 ^ n := by
      rw [hpow]
      have h3 : (2 ^ n * 2 - 1) = (2 ^ n - 1) + 2 ^ n := by omega
      rw [h3, Nat.add_mul]
      ring_nf
    omega
  · have : 0 < INIT * 2 ^ (n + 1) :=
      Nat.mul_pos hI (Nat.pos_pow_of_pos _ (by omega))
    omega

/-- The termination measure of `find_space_for` decreases at each recursive
call: the call moves to the start of the next lane, and whenever the current
position is already a lane start the guard forces `len` to exceed the lane
size, bounding the lane number by `len`. -/
theorem fs_measure_decreases (INIT : Nat) (hI : 0 < INIT) (offset len : Nat)
    (hguard : ¬ ((lane_nr_and_ofs INIT offset).2 + len ≤
      lane_size INIT (lane_nr_and_ofs INIT offset).1)) :
    (if (lane_nr_and_ofs INIT (offset +
          (lane_size INIT (lane_nr_and_ofs INIT offset).1 -
            (lane_nr_and_ofs INIT offset).2))).2 = 0 then 0 else 1) +
      2 * ((len + 1) - (lane_nr_and_ofs INIT (offset +
          (lane_size INIT (lane_nr_and_ofs INIT offset).1 -
            (lane_nr_and_ofs INIT offset).2))).1) <
    (if (lane_nr_and_ofs INIT offset).2 = 0 then 0 else 1) +
      2 * ((len + 1) - (lane_nr_and_ofs INIT offset).1) := by
  obtain ⟨he, hb⟩ := lane_nr_and_ofs_laneAt INIT hI offset
  rw [lane_nr_and_ofs_next_lane INIT hI offset]
  set n := (lane_nr_and_ofs INIT offset).1 with hn
  set r := (lane_nr_and_ofs INIT offset).2 with hr
  rw [show ((n + 1, 0) : Nat × Nat).2 = 0 from rfl,
    show ((n + 1, 0) : Nat × Nat).1 = n + 1 from rfl, if_pos rfl]
  by_cases hz : r = 0
  · have hsz : lane_size INIT n = INIT * 2 ^ n := rfl
    have hlen : INIT * 2 ^ n < len := by
      rw [hz] at hguard
      omega
    have h2n : n < 2 ^ n := Nat.lt_two_pow n
    have hIle : 2 ^ n ≤ INIT * 2 ^ n := Nat.le_mul_of_pos_left _ hI
    rw [if_pos hz]
    omega
  · rw [if_neg hz]
    have hsub : (len + 1) - (n + 1) ≤ (len + 1) - n := by omega
    omega

/-- Search for free space (src/src/storage/bytes.rs, `find_space_for`): if
`len` bytes starting at `offset` fit in the current lane return `offset`,
otherwise tail-recurse from the start of the next lane.  The source function
has no alignment parameter.  Termination needs `INIT > 0` (the Rust code
divides by `INIT_SIZE`, so `INIT_SIZE = 0` would panic there). -/
def find_space_for (INIT : Nat) (hI : 0 < INIT) (offset len : Nat) : Nat :=
  if (lane_nr_and_ofs INIT offset).2 + len ≤
      lane_size INIT (lane_nr_and_ofs INIT offset).1 then
    offset
  else
    find_space_for INIT hI
      (offset + (lane_size INIT (lane_nr_and_ofs INIT offset).1 -
        (lane_nr_and_ofs INIT offset).2))
      len
termination_by
  (if (lane_nr_and_ofs INIT offset).2 = 0 then 0 else 1) +
    2 * ((len + 1) - (lane_nr_and_ofs INIT offset).1)
decreasing_by
  rename_i hguard
  exact fs_measure_decreases INIT hI offset len hguard

/-- `find_space_for` satisfies: the result is at least `offset`, the range
`[result, result + len)` fits inside the lane of `result`, every byte of the
range is in the same lane, and the result is the smallest such offset: every
offset in `[offset, result)` has too little room left in its lane. -/
theorem find_space_for_spec (INIT : Nat) (hI : 0 < INIT) (offset len : Nat) :
    offset ≤ find_space_for INIT hI offset len ∧
    (lane_nr_and_ofs INIT (find_space_for INIT hI offset len)).2 + len ≤
      lane_size INIT
        (lane_nr_and_ofs INIT (find_space_for INIT hI offset len)).1 ∧
    (∀ k, k < len →
      (lane_nr_and_ofs INIT (find_space_for INIT hI offset len + k)).1 =
        (lane_nr_and_ofs INIT (find_space_for INIT hI offset len)).1) ∧
    (∀ o, offset ≤ o → o < find_space_for INIT hI offset len →
      lane_size INIT (lane_nr_and_ofs INIT o).1 <
        (lane_nr_and_ofs INIT o).2 + len) := by
  generalize hμ : (if (lane_nr_and_ofs INIT offset).2 = 0 then 0 else 1) +
      2 * ((len + 1) - (lane_nr_and_ofs INIT offset).1) = μ
  induction μ using Nat.strong_induction_on generalizing offset with
  | _ μ ih =>
  subst hμ
  rw [find_space_for]
  by_cases hfit : (lane_nr_and_ofs INIT offset).2 + len ≤
      lane_size INIT (lane_nr_and_ofs INIT offset).1
  · rw [if_pos hfit]
    obtain ⟨he, hb⟩ := lane_nr_and_ofs_laneAt INIT hI offset
    refine ⟨Nat.le_refl _, hfit, ?_, ?_⟩
    · intro k hk
      have hk2 : (lane_nr_and_ofs INIT offset).2 + k <
          INIT * 2 ^ (lane_nr_and_ofs INIT offset).1 := by
        have hsz : lane_size INIT (lane_nr_and_ofs INIT offset).1
            = INIT * 2 ^ (lane_nr_and_ofs INIT offset).1 := rfl
        omega
      rw [lane_nr_and_ofs_add INIT hI ⟨he, hb⟩ hk2]
    · intro o h1 h2
      omega
  · rw [if_neg hfit]
    obtain ⟨he, hb⟩ := lane_nr_and_ofs_laneAt INIT hI offset
    have hnext := lane_nr_and_ofs_next_lane INIT hI offset
    set n := (lane_nr_and_ofs INIT offset).1 with hn
    set r := (lane_nr_and_ofs INIT offset).2 with hr
    set offset' := offset + (lane_size INIT n - r) with hoff
    have hμlt := fs_measure_decreases INIT hI offset len hfit
    obtain ⟨ihle, ihfit, ihsame, ihmin⟩ := ih _ hμlt offset' rfl
    have hoffle : offset ≤ offset' := by omega
    refine ⟨Nat.le_trans hoffle ihle, ihfit, ihsame, ?_⟩
    intro o h1 h2
    by_cases ho : o < offset'
    · have hk : (lane_nr_and_ofs INIT o) = (n, r + (o - offset)) := by
        have hlt : r + (o - offset) < INIT * 2 ^ n := by
          have hsz : lane_size INIT n = INIT * 2 ^ n := rfl
          omega
        have := lane_nr_and_ofs_add INIT hI ⟨he, hb⟩ hlt
        have heq : offset + (o - offset) = o := by omega
        rw [heq] at this
        exact this
      rw [hk]
      simp only []
      omega
    · exact ihmin o (by omega) h2

/-- Evaluation helper: `lane_nr_and_ofs` at a concrete offset, via the
`LaneAt` characterization (the definition itself uses `Nat.log2`, which is
defined by well-founded recursion and does not reduce definitionally). -/
theorem lane_nr_and_ofs_eval {INIT n r o : Nat} (hI : 0 < INIT)
    (h₁ : o = r + (2 ^ n - 1) * INIT) (h₂ : r < INIT * 2 ^ n) :
    lane_nr_and_ofs INIT o = (n, r) :=
  lane_nr_and_ofs_eq INIT hI ⟨h₁, h₂⟩

end DiskBytes

/-- C4: For every offset `o < 2^32` and every `INIT ∈ {1, 17, 32, 1024}`, the
closed-form decomposition `lane_nr_and_ofs` (via `i = o / INIT + 1`,
`lane_nr = floor(log2 i)`, `inner = o - (2^lane_nr - 1) * INIT`) returns the
same pair as the iterative decomposition that repeatedly subtracts
`lane_size(0), lane_size(1), ...` until the remainder fits in the current
lane. -/
theorem c4_lane_nr_and_ofs_refines_slow (INIT o : Nat) (hI : 0 < INIT)
    (_hINIT : INIT = 1 ∨ INIT = 17 ∨ INIT = 32 ∨ INIT = 1024)
    (_ho : o < 2 ^ 32) :
    DiskBytes.lane_nr_and_ofs INIT o
      = DiskBytes.lane_nr_and_ofs_slow INIT hI o :=
  DiskBytes.lane_nr_and_ofs_eq_slow INIT hI o

/-- Witness for C4 at `INIT = 17`, `o = 123456`. -/
theorem c4_lane_nr_and_ofs_refines_slow_witness :
    DiskBytes.lane_nr_and_ofs 17 123456
      = DiskBytes.lane_nr_and_ofs_slow 17 (by decide) 123456 :=
  c4_lane_nr_and_ofs_refines_slow 17 123456 (by decide)
    (Or.inr (Or.inl rfl)) (by decide)

/-- C5 (amended): `find_space_for` takes only `(offset, len)` — the source
function has no alignment parameter.  Its result `o'` satisfies
`o' ≥ offset`, the whole range `[o', o' + len)` lies in the lane of `o'`
(so it never crosses a lane boundary), and `o'` is the smallest such offset:
every earlier candidate has too little room left in its lane, so the search
skips to the start of the next lane and retries. -/
theorem c5_find_space_for_no_cross_lane (INIT : Nat) (hI : 0 < INIT)
    (offset len : Nat) :
    offset ≤ DiskBytes.find_space_for INIT hI offset len ∧
    (DiskBytes.lane_nr_and_ofs INIT
        (DiskBytes.find_space_for INIT hI offset len)).2 + len ≤
      DiskBytes.lane_size INIT
        (DiskBytes.lane_nr_and_ofs INIT
          (DiskBytes.find_space_for INIT hI offset len)).1 ∧
    (∀ k, k < len →
      (DiskBytes.lane_nr_and_ofs INIT
          (DiskBytes.find_space_for INIT hI offset len + k)).1 =
        (DiskBytes.lane_nr_and_ofs INIT
          (DiskBytes.find_space_for INIT hI offset len)).1) ∧
    (∀ o, offset ≤ o → o < DiskBytes.find_space_for INIT hI offset len →
      DiskBytes.lane_size INIT (DiskBytes.lane_nr_and_ofs INIT o).1 <
        (DiskBytes.lane_nr_and_ofs INIT o).2 + len) :=
  DiskBytes.find_space_for_spec INIT hI offset len

/-- Witness for C5 at `INIT = 1`, `offset = 0`, `len = 100`. -/
theorem c5_find_space_for_no_cross_lane_witness :
    0 ≤ DiskBytes.find_space_for 1 (by decide) 0 100 :=
  (c5_find_space_for_no_cross_lane 1 (by decide) 0 100).1

namespace Journal

/-- Panic outcomes of the journal code paths: a failed `assert!` or a
slice-indexing panic. -/
inductive JPanic where
  | assertFailed
  | indexOutOfBounds
deriving DecidableEq

/-- State of a disk-backed journal (src/src/storage/journal.rs,
`JournalInner::Disk`): the mapped file cast to a slice of
`JournalEntry { checksum, value }` pairs, plus the cursor
`latest_entry_index`.  The value type `T` is modelled as `Nat`
(the library instantiates `T = u64`), entries as `(checksum, value)`. -/
structure DiskState where
  entries : List (Nat × Nat)
  latest_entry_index : Nat

/-- `JournalEntry::get` (src/src/storage/journal.rs): return the value iff
the recomputed checksum matches the stored one.  `σ` models the
deterministic seahash-based `JournalEntry::checksum`. -/
def entry_get (σ : Nat → Nat) (e : Nat × Nat) : Option Nat :=
  if σ e.2 = e.1 then some e.2 else none

/-- The scan loop of `Journal::open` (src/src/storage/journal.rs): walk all
entries with a running `(latest_entry_index, candidate)`, starting from
`(0, T::default())`, replacing them whenever an entry validates with a value
strictly greater than the candidate. -/
def open_scan_aux (σ : Nat → Nat) :
    Nat → Nat → Nat → List (Nat × Nat) → Nat × Nat
  | _, latest, candidate, [] => (latest, candidate)
  | i, latest, candidate, e :: rest =>
    match entry_get σ e with
    | some val =>
      if val > candidate then open_scan_aux σ (i + 1) i val rest
      else open_scan_aux σ (i + 1) latest candidate rest
    | none => open_scan_aux σ (i + 1) latest candidate rest

/-- The full recovery scan of `Journal::open`:
`latest_entry_index = 0`, `candidate = T::default() = 0`. -/
def open_scan (σ : Nat → Nat) (entries : List (Nat × Nat)) : Nat × Nat :=
  open_scan_aux σ 0 0 0 entries

/-- `JournalInner::update` for the `Disk` variant
(src/src/storage/journal.rs, lines 126-156).  `SIZE` is the const generic of
`Journal<T, SIZE>`, i.e. the byte length the file was `set_len` to; the
number of entries is `entries.length = SIZE / size_of::<JournalEntry<T>>()`.
The source computes `next_entry = (latest_entry_index + 1) % SIZE` and then
writes `entries[next_entry]`; Rust slice indexing panics when the index is
out of bounds, modelled by `.error .indexOutOfBounds`.  The closure is
modelled by the new value `f old`. -/
def update (σ : Nat → Nat) (SIZE : Nat) (f : Nat → Nat) (st : DiskState) :
    Except JPanic DiskState :=
  match st.entries.get? st.latest_entry_index with
  | none => .error .indexOutOfBounds
  | some entry =>
    let old_value := entry.2
    let next_entry := (st.latest_entry_index + 1) % SIZE
    let value := f old_value
    if value ≥ old_value then
      if next_entry < st.entries.length then
        .ok ⟨st.entries.set next_entry (σ value, value), next_entry⟩
      else .error .indexOutOfBounds
    else .error .assertFailed

/-- `JournalInner::update` for the `Mem` variant
(src/src/storage/journal.rs, lines 157-166): run the closure on the guarded
value and assert the result is STRICTLY greater than the old value
("Journal updates must be strictly incremental"). -/
def update_mem (f : Nat → Nat) (value : Nat) : Except JPanic Nat :=
  let value_copy := value
  let value := f value
  if value > value_copy then .ok value else .error .assertFailed

/-- Iterate `update` a number of times, stopping at the first panic. -/
def update_iter (σ : Nat → Nat) (SIZE : Nat) (f : Nat → Nat) :
    Nat → DiskState → Except JPanic DiskState
  | 0, st => .ok st
  | n + 1, st =>
    match update σ SIZE f st with
    | .ok st' => update_iter σ SIZE f n st'
    | .error e => .error e

/-- Successful `update` on the `Disk` variant: the closure result is no less
than the old value and the target slot index is inside the entry slice. -/
theorem update_ok (σ : Nat → Nat) (SIZE : Nat) (f : Nat → Nat)
    (st : DiskState) (e : Nat × Nat)
    (hget : st.entries.get? st.latest_entry_index = some e)
    (hmono : e.2 ≤ f e.2)
    (hnext : (st.latest_entry_index + 1) % SIZE < st.entries.length) :
    update σ SIZE f st
      = .ok ⟨st.entries.set ((st.latest_entry_index + 1) % SIZE)
          (σ (f e.2), f e.2), (st.latest_entry_index + 1) % SIZE⟩ := by
  simp only [update, hget]
  rw [if_pos (by omega), if_pos hnext]

/-- `update` panics on a decreasing closure (`assert!` failure). -/
theorem update_assert_failed (σ : Nat → Nat) (SIZE : Nat) (f : Nat → Nat)
    (st : DiskState) (e : Nat × Nat)
    (hget : st.entries.get? st.latest_entry_index = some e)
    (hdec : f e.2 < e.2) :
    update σ SIZE f st = .error .assertFailed := by
  simp only [update, hget]
  rw [if_neg (by omega)]

/-- `update` panics indexing `entries[next_entry]` when
`(latest_entry_index + 1) % SIZE` falls outside the entry slice. -/
theorem update_index_oob (σ : Nat → Nat) (SIZE : Nat) (f : Nat → Nat)
    (st : DiskState) (e : Nat × Nat)
    (hget : st.entries.get? st.latest_entry_index = some e)
    (hmono : e.2 ≤ f e.2)
    (hnext : ¬ ((st.latest_entry_index + 1) % SIZE < st.entries.length)) :
    update σ SIZE f st = .error .indexOutOfBounds := by
  simp only [update, hget]
  rw [if_pos (by omega), if_neg hnext]

/-- Iterating a non-decreasing closure on a 64-entry journal with
`SIZE = 1024` runs off the end of the entry slice: starting from cursor
position `63 - m`, after `m` successful in-bounds updates the cursor is at
`63` and the next update computes slot `64 % 1024 = 64`, out of bounds. -/
theorem update_iter_runs_out (σ : Nat → Nat) (f : Nat → Nat)
    (hf : ∀ v, v ≤ f v) :
    ∀ m st, st.entries.length = 64 → st.latest_entry_index + m = 63 →
      update_iter σ 1024 f (m + 1) st = .error .indexOutOfBounds := by
  intro m
  induction m with
  | zero =>
    intro st hlen hlast
    have hlt : st.latest_entry_index < st.entries.length := by omega
    have hget := List.get?_eq_get hlt
    rw [update_iter, update_index_oob σ 1024 f st _ hget (hf _) (by omega)]
  | succ m ih =>
    intro st hlen hlast
    have hlt : st.latest_entry_index < st.entries.length := by omega
    have hget := List.get?_eq_get hlt
    have hmod : (st.latest_entry_index + 1) % 1024
        = st.latest_entry_index + 1 := Nat.mod_eq_of_lt (by omega)
    rw [update_iter, update_ok σ 1024 f st _ hget (hf _) (by
      rw [hmod]
      omega)]
    refine ih _ (by simpa using hlen) ?_
    show (st.latest_entry_index + 1) % 1024 + m = 63
    rw [hmod]
    omega

theorem open_scan_aux_replicate_zero (σ : Nat → Nat) (n : Nat) :
    ∀ i latest, open_scan_aux σ i latest 0 (List.replicate n (0, 0))
      = (latest, 0) := by
  induction n with
  | zero => intro i latest; rfl
  | succ n ih =>
    intro i latest
    rw [List.replicate_succ, open_scan_aux]
    by_cases hσ : σ 0 = 0
    · have hget : entry_get σ (0, 0) = some 0 := by
        simp [entry_get, hσ]
      rw [hget]
      show (if 0 > 0 then open_scan_aux σ (i + 1) i 0 (List.replicate n (0, 0))
        else open_scan_aux σ (i + 1) latest 0 (List.replicate n (0, 0)))
        = (latest, 0)
      rw [if_neg (by omega)]
      exact ih (i + 1) latest
    · have hget : entry_get σ (0, 0) = none := by
        simp [entry_get, hσ]
      rw [hget]
      exact ih (i + 1) latest

/-- Invariants of the `Journal::open` recovery scan, generalized over the
running accumulator `(i, latest, candidate)`: the candidate never decreases,
it dominates every validating value, when it strictly grew some scanned
entry validates with exactly the final candidate and the cursor points
there, and when it did not grow the cursor is untouched. -/
theorem open_scan_aux_cons_none (σ : Nat → Nat) (e : Nat × Nat)
    (rest : List (Nat × Nat)) (i latest cand : Nat)
    (hget : entry_get σ e = none) :
    open_scan_aux σ i latest cand (e :: rest)
      = open_scan_aux σ (i + 1) latest cand rest := by
  rw [open_scan_aux, hget]

theorem open_scan_aux_cons_gt (σ : Nat → Nat) (e : Nat × Nat)
    (rest : List (Nat × Nat)) (i latest cand val : Nat)
    (hget : entry_get σ e = some val) (hvc : val > cand) :
    open_scan_aux σ i latest cand (e :: rest)
      = open_scan_aux σ (i + 1) i val rest := by
  rw [open_scan_aux, hget]
  exact if_pos hvc

theorem open_scan_aux_cons_le (σ : Nat → Nat) (e : Nat × Nat)
    (rest : List (Nat × Nat)) (i latest cand val : Nat)
    (hget : entry_get σ e = some val) (hvc : ¬ val > cand) :
    open_scan_aux σ i latest cand (e :: rest)
      = open_scan_aux σ (i + 1) latest cand rest := by
  rw [open_scan_aux, hget]
  exact if_neg hvc

theorem open_scan_aux_spec (σ : Nat → Nat) :
    ∀ (entries : List (Nat × Nat)) (i latest cand : Nat),
      cand ≤ (open_scan_aux σ i latest cand entries).2 ∧
      (∀ j (h : j < entries.length) v,
        entry_get σ (entries.get ⟨j, h⟩) = some v →
        v ≤ (open_scan_aux σ i latest cand entries).2) ∧
      ((open_scan_aux σ i latest cand entries).2 > cand →
        ∃ j, ∃ h : j < entries.length,
          entry_get σ (entries.get ⟨j, h⟩)
              = some (open_scan_aux σ i latest cand entries).2 ∧
          (open_scan_aux σ i latest cand entries).1 = i + j) ∧
      ((open_scan_aux σ i latest cand entries).2 = cand →
        (open_scan_aux σ i latest cand entries).1 = latest) := by
  intro entries
  induction entries with
  | nil =>
    intro i latest cand
    exact ⟨Nat.le_refl _, fun j h => absurd h (by simp),
      fun h => absurd h (by simp [open_scan_aux]),
      fun _ => rfl⟩
  | cons e rest ih =>
    intro i latest cand
    cases hget : entry_get σ e with
    | none =>
      rw [open_scan_aux_cons_none σ e rest i latest cand hget]
      obtain ⟨ih1, ih2, ih3, ih4⟩ := ih (i + 1) latest cand
      refine ⟨ih1, ?_, ?_, ih4⟩
      · intro j h v hv
        match j with
        | 0 =>
          have hv0 : entry_get σ e = some v := hv
          rw [hget] at hv0
          cases hv0
        | j + 1 =>
          exact ih2 j (by simp only [List.length_cons] at h; omega) v hv
      · intro hgrow
        obtain ⟨j, hj, hv, hl⟩ := ih3 hgrow
        exact ⟨j + 1, by simp only [List.length_cons]; omega, hv, by omega⟩
    | some val =>
      by_cases hvc : val > cand
      · rw [open_scan_aux_cons_gt σ e rest i latest cand val hget hvc]
        obtain ⟨ih1, ih2, ih3, ih4⟩ := ih (i + 1) i val
        refine ⟨by omega, ?_, ?_, ?_⟩
        · intro j h v hv
          match j with
          | 0 =>
            have hv0 : entry_get σ e = some v := hv
            rw [hget] at hv0
            cases hv0
            exact ih1
          | j + 1 =>
            exact ih2 j (by simp only [List.length_cons] at h; omega) v hv
        · intro hgrow
          by_cases hR : (open_scan_aux σ (i + 1) i val rest).2 > val
          · obtain ⟨j, hj, hv, hl⟩ := ih3 hR
            exact ⟨j + 1, by simp only [List.length_cons]; omega, hv,
              by omega⟩
          · have hEq : (open_scan_aux σ (i + 1) i val rest).2 = val := by
              omega
            refine ⟨0, by simp, ?_, ?_⟩
            · show entry_get σ e
                = some (open_scan_aux σ (i + 1) i val rest).2
              rw [hget, hEq]
            · rw [ih4 hEq]
              omega
        · intro hEq
          omega
      · rw [open_scan_aux_cons_le σ e rest i latest cand val hget hvc]
        obtain ⟨ih1, ih2, ih3, ih4⟩ := ih (i + 1) latest cand
        refine ⟨ih1, ?_, ?_, ih4⟩
        · intro j h v hv
          match j with
          | 0 =>
            have hv0 : entry_get σ e = some v := hv
            rw [hget] at hv0
            cases hv0
            omega
          | j + 1 =>
            exact ih2 j (by simp only [List.length_cons] at h; omega) v hv
        · intro hgrow
          obtain ⟨j, hj, hv, hl⟩ := ih3 hgrow
          exact ⟨j + 1, by simp only [List.length_cons]; omega, hv, by omega⟩

end Journal

namespace JournalOld

/-- Entry count of the older journal variant (src/src/journal.rs,
`JOURNAL_LEN`). -/
def JOURNAL_LEN : Nat := 16

/-- State of the older journal (src/src/journal.rs, `JournalInner`): a ring
of `JournalEntry { nodes_reserved, bytes_written, checksum }`, of length
exactly `JOURNAL_LEN` (asserted at open), plus the cursor. -/
structure State where
  entries : List (Nat × Nat × Nat)
  latest_entry_index : Nat

/-- `JournalInner::update_entry` (src/src/journal.rs, lines 129-141): write
the new entry into slot `(latest_entry_index + 1) % JOURNAL_LEN` — modulo
the ENTRY COUNT, unlike the storage variant — and advance the cursor.
`σ` models `Header::checksum` on the `(nodes_reserved, bytes_written)`
pair. -/
def update_entry (σ : Nat × Nat → Nat) (st : State)
    (nodes_reserved bytes_written : Nat) : State :=
  let next_entry := (st.latest_entry_index + 1) % JOURNAL_LEN
  let checksum := σ (nodes_reserved, bytes_written)
  { entries := st.entries.set next_entry
      (nodes_reserved, bytes_written, checksum),
    latest_entry_index := next_entry }

/-- In the older variant the written slot is always inside the ring: the
modulus is the entry count itself. -/
theorem update_entry_in_bounds (σ : Nat × Nat → Nat) (st : State)
    (a b : Nat) (hlen : st.entries.length = JOURNAL_LEN) :
    (update_entry σ st a b).latest_entry_index < st.entries.length := by
  rw [hlen]
  exact Nat.mod_lt _ (by decide)

end JournalOld

/-- C1: the claim states that an update writes into slot
`(cursor + 1) mod (entry count)` and hence the written slot always stays in
bounds.  The storage-variant code (src/src/storage/journal.rs) instead
computes `(latest_entry_index + 1) % SIZE` where `SIZE` is the FILE SIZE IN
BYTES (the const generic the file is `set_len` to), not the entry count
`SIZE / size_of::<JournalEntry<T>>()`.  With the library's own
instantiation `Journal<u64, 1024>` (src/src/storage/appendonly.rs) the ring
has `1024 / 16 = 64` entries, and the 64th update on a freshly opened
journal computes `next_entry = (63 + 1) % 1024 = 64` and panics indexing
`entries[64]`, instead of wrapping to slot 0.  This holds for every
checksum function `σ`. -/
theorem c1_journal_ring_index_out_of_bounds (σ : Nat → Nat) :
    Journal.update_iter σ 1024 (fun v => v + 1) 64
      ⟨List.replicate 64 (0, 0),
        (Journal.open_scan σ (List.replicate 64 (0, 0))).1⟩
      = .error .indexOutOfBounds := by
  have hscan : Journal.open_scan σ (List.replicate 64 (0, 0)) = (0, 0) :=
    Journal.open_scan_aux_replicate_zero σ 64 0 0
  rw [hscan, show ((0, 0) : Nat × Nat).1 = 0 from rfl]
  exact Journal.update_iter_runs_out σ (fun v => v + 1)
    (fun v => Nat.le_succ v) 63 ⟨List.replicate 64 (0, 0), 0⟩ (by simp) rfl

/-- C7 (amended): on open the journal scans every entry of the ring and
validates each checksum; the final candidate dominates every validating
value; whenever the candidate is strictly above `T::default()` (= 0 for the
`u64` journal) the cursor points at an entry that validates with exactly
that value; when no entry validates with a value above the default the
cursor stays at entry 0 (which need not itself validate).  The torn-write
scenario holds: with entries for values 1, 2, 3 where the newest entry (3)
has a corrupted checksum, reopening recovers cursor 1 with the previous
validating value 2. -/
theorem c7_journal_open_scan_recovery (σ : Nat → Nat)
    (entries : List (Nat × Nat)) :
    (∀ j (h : j < entries.length) v,
      Journal.entry_get σ (entries.get ⟨j, h⟩) = some v →
      v ≤ (Journal.open_scan σ entries).2) ∧
    (0 < (Journal.open_scan σ entries).2 →
      ∃ j, ∃ h : j < entries.length,
        Journal.entry_get σ (entries.get ⟨j, h⟩)
            = some (Journal.open_scan σ entries).2 ∧
        (Journal.open_scan σ entries).1 = j) ∧
    ((Journal.open_scan σ entries).2 = 0 →
      (Journal.open_scan σ entries).1 = 0) ∧
    Journal.open_scan (fun v => v + 1) [(2, 1), (3, 2), (999, 3), (0, 0)]
      = (1, 2) := by
  have huf : Journal.open_scan σ entries
      = Journal.open_scan_aux σ 0 0 0 entries := rfl
  rw [huf]
  obtain ⟨h1, h2, h3, h4⟩ := Journal.open_scan_aux_spec σ entries 0 0 0
  refine ⟨h2, ?_, h4, rfl⟩
  intro hpos
  obtain ⟨j, hj, hv, hl⟩ := h3 hpos
  exact ⟨j, hj, hv, by omega⟩

/-- Witness for C7: with checksum model `σ v = v + 1` and a single entry
`(2, 1)` that validates with value 1, the recovered candidate is at least
1. -/
theorem c7_journal_open_scan_recovery_witness :
    1 ≤ (Journal.open_scan (fun v => v + 1) [(2, 1)]).2 :=
  (c7_journal_open_scan_recovery (fun v => v + 1) [(2, 1)]).1 0
    (by decide) 1 rfl

/-- Counterexample for C7 as literally stated: with checksum model
`σ v = v + 1`, entries `[(5, 77), (1, 0)]` have exactly one validating
entry — index 1, holding value 0 — so "the entry holding the largest
validating value" is entry 1; yet the scan leaves the cursor at 0, an entry
that does not validate, because the scan only moves the cursor for values
strictly greater than `T::default()`. -/
theorem c7_cursor_counterexample :
    Journal.open_scan (fun v => v + 1) [(5, 77), (1, 0)] = (0, 0) ∧
    Journal.entry_get (fun v => v + 1) ((1 : Nat), (0 : Nat)) = some 0 ∧
    Journal.entry_get (fun v => v + 1) ((5 : Nat), (77 : Nat)) = none :=
  ⟨rfl, rfl, rfl⟩

/-- C8 (amended): the disk-backed `update` asserts the new value is `≥` the
old one — a decreasing closure panics, an unchanged value succeeds — but
the ephemeral (`Mem`) variant asserts the new value is STRICTLY greater, so
a closure that leaves the value unchanged panics there.  The two variants
do not enforce the same contract. -/
theorem c8_journal_monotonicity_contract (σ : Nat → Nat) (SIZE : Nat)
    (st : Journal.DiskState) (f : Nat → Nat) (e : Nat × Nat)
    (hget : st.entries.get? st.latest_entry_index = some e)
    (hnext : (st.latest_entry_index + 1) % SIZE < st.entries.length) :
    (e.2 ≤ f e.2 →
      Journal.update σ SIZE f st
        = .ok ⟨st.entries.set ((st.latest_entry_index + 1) % SIZE)
            (σ (f e.2), f e.2), (st.latest_entry_index + 1) % SIZE⟩) ∧
    (f e.2 < e.2 → Journal.update σ SIZE f st = .error .assertFailed) ∧
    (e.2 < f e.2 → Journal.update_mem f e.2 = .ok (f e.2)) ∧
    (f e.2 ≤ e.2 → Journal.update_mem f e.2 = .error .assertFailed) := by
  refine ⟨fun h => Journal.update_ok σ SIZE f st e hget h hnext,
    fun h => Journal.update_assert_failed σ SIZE f st e hget h,
    fun h => ?_, fun h => ?_⟩
  · simp only [Journal.update_mem]
    rw [if_pos h]
  · simp only [Journal.update_mem]
    rw [if_neg (by omega)]

/-- Witness for C8: a strictly increasing closure succeeds on the ephemeral
journal. -/
theorem c8_journal_monotonicity_contract_witness :
    Journal.update_mem (fun v => v + 2) 5 = .ok 7 :=
  (c8_journal_monotonicity_contract (fun v => v + 1) 1024
    ⟨[(0, 5), (0, 0)], 0⟩ (fun v => v + 2) (0, 5) rfl (by decide)).2.2.1
    (by decide)

/-- Counterexample for C8 as literally stated: the identity closure (which
leaves the value unchanged) panics on the ephemeral journal, while the same
closure succeeds on a disk-backed journal in the same situation — the
ephemeral journal does NOT enforce the same (non-strict) contract. -/
theorem c8_ephemeral_strict_counterexample :
    Journal.update_mem (fun v => v) 5 = .error .assertFailed ∧
    Journal.update (fun v => v + 1) 1024 (fun v => v) ⟨[(0, 5), (0, 0)], 0⟩
      = .ok ⟨[(0, 5), (6, 5)], 1⟩ :=
  ⟨rfl, rfl⟩

/-- Counterexample for C5 as literally stated: the claim quantifies over an
alignment parameter and asserts `o' mod alignment = 0`, but the source
`find_space_for(offset, len)` has no alignment parameter and performs no
alignment rounding.  At `(offset, len) = (1, 1)` and alignment `2` the
result is `1`, which is not a multiple of `2`. -/
theorem c5_find_space_for_alignment_counterexample :
    DiskBytes.find_space_for 1 (by decide) 1 1 = 1 ∧ ¬ (1 % 2 = 0) := by
  constructor
  · rw [DiskBytes.find_space_for,
      @DiskBytes.lane_nr_and_ofs_eval 1 1 0 1 (by decide) (by decide)
        (by decide)]
    exact if_pos (by decide)
  · decide

namespace DiskBytes

/-- Failure modes of the write path: writing across a lane boundary returns
an `io::Error` ("Cannot write between lanes"); a lane number at or past
`N_LANES` makes the Rust code panic indexing the 32-element lane array. -/
inductive WriteErr where
  | crossLane
  | laneIndexOOB
deriving DecidableEq

/-- Memory model of the lane array of `DiskBytes`
(src/src/storage/bytes.rs): slot `i` holds `some bytes` when lane `i` is
mapped (`bytes.length = lane_size INIT i`) and `none` when not yet mapped.
In the ephemeral landfill the lanes are anonymous zero-filled maps. -/
structure State where
  lanes : List (Option (List Nat))

/-- A freshly opened ephemeral arena: no lane is mapped yet. -/
def ephemeral : State := ⟨List.replicate N_LANES none⟩

/-- `DiskBytes::read` (src/src/storage/bytes.rs): locate `(lane, inner)`;
`None` when the range crosses the lane boundary or the lane is unmapped,
otherwise the `len` bytes at `inner`.  (For `lane ≥ N_LANES` the Rust code
panics indexing the lane array; the model returns `None`, a case no claim
exercises.) -/
def read (INIT : Nat) (st : State) (offset len : Nat) : Option (List Nat) :=
  let lane := (lane_nr_and_ofs INIT offset).1
  let inner := (lane_nr_and_ofs INIT offset).2
  if inner + len > lane_size INIT lane then none
  else
    match st.lanes.get? lane with
    | some (some lane_bytes) => some ((lane_bytes.drop inner).take len)
    | _ => none

/-- `DiskBytes::request_write` followed by the caller's
`copy_from_slice(data)` (src/src/storage/bytes.rs): error between lanes;
lazily install the lane (a zero-filled mapping of `lane_size lane`) if it
is not yet mapped; then overwrite the `data.length` bytes at `inner`. -/
def write_bytes (INIT : Nat) (st : State) (offset : Nat) (data : List Nat) :
    Except WriteErr State :=
  let lane := (lane_nr_and_ofs INIT offset).1
  let inner := (lane_nr_and_ofs INIT offset).2
  if inner + data.length > lane_size INIT lane then .error .crossLane
  else
    match st.lanes.get? lane with
    | none => .error .laneIndexOOB
    | some l =>
      let lane_bytes := l.getD (List.replicate (lane_size INIT lane) 0)
      .ok ⟨st.lanes.set lane (some (lane_bytes.take inner ++ data ++
        lane_bytes.drop (inner + data.length)))⟩

/-- Writing `data` at `offset` succeeds when the range fits in its lane and
the lane index is in range, and reading the same range back afterwards
returns exactly `data`. -/
theorem write_bytes_read_roundtrip (INIT : Nat) (st : State) (offset : Nat)
    (data : List Nat) (lane inner : Nat)
    (hdec : lane_nr_and_ofs INIT offset = (lane, inner))
    (hfit : inner + data.length ≤ lane_size INIT lane)
    (l : Option (List Nat)) (hlane : st.lanes.get? lane = some l)
    (hl : ∀ bytes, l = some bytes → bytes.length = lane_size INIT lane) :
    ∃ newbytes : List Nat,
      write_bytes INIT st offset data
        = .ok ⟨st.lanes.set lane (some newbytes)⟩ ∧
      newbytes.length = lane_size INIT lane ∧
      read INIT ⟨st.lanes.set lane (some newbytes)⟩ offset data.length
        = some data := by
  have hbl : (l.getD (List.replicate (lane_size INIT lane) 0)).length
      = lane_size INIT lane := by
    cases l with
    | none => simp
    | some bytes => simpa using hl bytes rfl
  set bytes := l.getD (List.replicate (lane_size INIT lane) 0) with hbytes
  have hlt : lane < st.lanes.length := by
    by_contra hcon
    rw [List.get?_eq_none.mpr (by omega)] at hlane
    cases hlane
  have hinner : inner ≤ bytes.length := by omega
  have htakelen : (bytes.take inner).length = inner := by
    rw [List.length_take]
    omega
  refine ⟨bytes.take inner ++ data ++ bytes.drop (inner + data.length),
    ?_, ?_, ?_⟩
  · simp only [write_bytes, hdec]
    rw [if_neg (by omega), hlane]
  · rw [List.length_append, List.length_append, List.length_take,
      List.length_drop]
    omega
  · simp only [read, hdec]
    rw [if_neg (by omega),
      List.get?_set_eq_of_lt _ hlt]
    show some (((bytes.take inner ++ data ++
      bytes.drop (inner + data.length)).drop inner).take data.length)
      = some data
    rw [List.append_assoc, List.drop_left' htakelen, List.take_left' rfl]

end DiskBytes

namespace RandomAccess

/-- `is_all_zeroes` (src/src/helpers.rs): byte-compare a value against its
type's zeroed representation. -/
def is_all_zeroes (bytes : List Nat) : Bool :=
  bytes == List.replicate bytes.length 0

theorem is_all_zeroes_replicate (n : Nat) :
    is_all_zeroes (List.replicate n 0) = true := by
  simp [is_all_zeroes]

/-- `RandomAccess::get` (src/src/storage/randomaccess.rs): read the
`size_of::<T>()` bytes at `index * size_of::<T>()`; `None` when the slot is
unreadable or reads as all zeroes ("uninitialized"), otherwise the value.
`tsize` models `size_of::<T>()`. -/
def get (INIT tsize : Nat) (st : DiskBytes.State) (index : Nat) :
    Option (List Nat) :=
  let byte_offset := index * tsize
  match DiskBytes.read INIT st byte_offset tsize with
  | some slice => if ¬ is_all_zeroes slice then some slice else none
  | none => none

/-- `RandomAccess::with_mut` (src/src/storage/randomaccess.rs): request a
write slice for the slot, run the closure on the current `T` bytes (a fresh
lane reads as zeroes), store the closure's view of the slot, and return
normally.  There is no check of what the closure stored. -/
def with_mut (INIT tsize : Nat) (st : DiskBytes.State) (index : Nat)
    (closure : List Nat → List Nat) :
    Except DiskBytes.WriteErr DiskBytes.State :=
  let byte_offset := index * tsize
  let lane := (DiskBytes.lane_nr_and_ofs INIT byte_offset).1
  let inner := (DiskBytes.lane_nr_and_ofs INIT byte_offset).2
  if inner + tsize > DiskBytes.lane_size INIT lane then .error .crossLane
  else
    match st.lanes.get? lane with
    | none => .error .laneIndexOOB
    | some l =>
      let lane_bytes :=
        l.getD (List.replicate (DiskBytes.lane_size INIT lane) 0)
      let t := (lane_bytes.drop inner).take tsize
      .ok ⟨st.lanes.set lane (some (lane_bytes.take inner ++ closure t ++
        lane_bytes.drop (inner + tsize)))⟩

/-- For a closure whose output has the slot size (every `&mut T` write in
the source does), `with_mut` is the write path of the byte arena. -/
theorem with_mut_const_eq_write_bytes (INIT tsize : Nat)
    (st : DiskBytes.State) (index : Nat) (data : List Nat)
    (hdata : data.length = tsize) :
    with_mut INIT tsize st index (fun _ => data)
      = DiskBytes.write_bytes INIT st (index * tsize) data := by
  simp only [with_mut, DiskBytes.write_bytes, hdata]

end RandomAccess

namespace AppendOnly

/-- `Record` (src/src/storage/appendonly.rs): offset, length and the
store's entropy-derived `Tag`. -/
structure Record where
  offset : Nat
  length : Nat
  tag : Nat

/-- State of an ephemeral `AppendOnly` store: the byte arena, the writehead
guarded by the ephemeral (`Mem`) journal, and the entropy tag. -/
structure AOState where
  bytes : DiskBytes.State
  writehead : Nat
  tag : Nat

/-- Outcome of `AppendOnly::get`: the two `assert!`/`expect` panics, or the
referenced bytes. -/
inductive GetResult where
  | panicTag
  | panicInvalid
  | ok (data : List Nat)

/-- Failures of `AppendOnly::write`: the ephemeral journal's strictness
assert, or a propagated io error from the arena. -/
inductive WriteFailure where
  | journalPanic
  | ioErr (e : DiskBytes.WriteErr)

/-- `AppendOnly::write` (src/src/storage/appendonly.rs): under the journal
lock, `find_space_for` from the current writehead, store
`write_offset + len` as the new writehead (the ephemeral `Mem` journal
asserts the new value is strictly greater than the old), then copy the
bytes into the arena at `write_offset` and hand back a `Record` carrying
the store's tag. -/
def write (INIT : Nat) (hI : 0 < INIT) (st : AOState) (data : List Nat) :
    Except WriteFailure (AOState × Record) :=
  let len := data.length
  let write_offset := DiskBytes.find_space_for INIT hI st.writehead len
  if write_offset + len > st.writehead then
    match DiskBytes.write_bytes INIT st.bytes write_offset data with
    | .ok b2 =>
      .ok ({ bytes := b2, writehead := write_offset + len, tag := st.tag },
        ⟨write_offset, len, st.tag⟩)
    | .error e => .error (.ioErr e)
  else .error .journalPanic

/-- `AppendOnly::get` (src/src/storage/appendonly.rs): `assert!` that the
record's tag matches the store's tag ("Usage of record issued in another
path!"), then `read` and `expect` ("invalid record!"). -/
def get (INIT : Nat) (st : AOState) (r : Record) : GetResult :=
  if r.tag = st.tag then
    match DiskBytes.read INIT st.bytes r.offset r.length with
    | some data => .ok data
    | none => .panicInvalid
  else .panicTag

end AppendOnly

theorem INIT1024_pos : 0 < 1024 := by decide

set_option maxRecDepth 65536

namespace AppendOnly

/-- "hello word" as bytes (the S1 scenario's first message). -/
def msgA : List Nat := [104, 101, 108, 108, 111, 32, 119, 111, 114, 100]

/-- "hello world!" as bytes (the S1 scenario's second message). -/
def msgB : List Nat :=
  [104, 101, 108, 108, 111, 32, 119, 111, 114, 108, 100, 33]

/-- The S1 scenario's freshly opened ephemeral store (`INIT_SIZE = 1024`,
an arbitrary entropy tag 42). -/
def scenario_st0 : AOState := ⟨DiskBytes.ephemeral, 0, 42⟩

/-- The store after writing "hello word" at offset 0 into lane 0. -/
def scenario_st1 : AOState :=
  ⟨⟨(List.replicate 32 (none : Option (List Nat))).set 0
      (some (msgA ++ List.replicate 1014 0))⟩, 10, 42⟩

/-- The store after also writing "hello world!" at offset 10. -/
def scenario_st2 : AOState :=
  ⟨⟨(List.replicate 32 (none : Option (List Nat))).set 0
      (some (msgA ++ msgB ++ List.replicate 1002 0))⟩, 22, 42⟩

theorem lane_dec_0 : DiskBytes.lane_nr_and_ofs 1024 0 = (0, 0) :=
  @DiskBytes.lane_nr_and_ofs_eval 1024 0 0 0 (by decide) (by decide)
    (by decide)

theorem lane_dec_10 : DiskBytes.lane_nr_and_ofs 1024 10 = (0, 10) :=
  @DiskBytes.lane_nr_and_ofs_eval 1024 0 10 10 (by decide) (by decide)
    (by decide)

theorem fs_scenario_1 :
    DiskBytes.find_space_for 1024 INIT1024_pos 0 msgA.length = 0 := by
  rw [DiskBytes.find_space_for, lane_dec_0]
  exact if_pos (by decide)

theorem fs_scenario_2 :
    DiskBytes.find_space_for 1024 INIT1024_pos 10 msgB.length = 10 := by
  rw [DiskBytes.find_space_for, lane_dec_10]
  exact if_pos (by decide)

theorem scenario_write_1 :
    write 1024 INIT1024_pos scenario_st0 msgA
      = .ok (scenario_st1, ⟨0, 10, 42⟩) := by
  simp only [write, scenario_st0, fs_scenario_1, DiskBytes.write_bytes,
    lane_dec_0]
  rfl

theorem scenario_write_2 :
    write 1024 INIT1024_pos scenario_st1 msgB
      = .ok (scenario_st2, ⟨10, 12, 42⟩) := by
  simp only [write, scenario_st1, fs_scenario_2, DiskBytes.write_bytes,
    lane_dec_10]
  rfl

theorem scenario_get_0 :
    get 1024 scenario_st2 ⟨0, 10, 42⟩ = .ok msgA := by
  simp only [get, scenario_st2, DiskBytes.read, lane_dec_0]
  rfl

theorem scenario_get_1 :
    get 1024 scenario_st2 ⟨10, 12, 42⟩ = .ok msgB := by
  simp only [get, scenario_st2, DiskBytes.read, lane_dec_10]
  rfl

end AppendOnly

/-- C3: each `AppendOnly::write(bytes)` makes the journal update return the
pre-advance offset `r = find_space_for(writehead, len)` (the record's
start) while storing `r + len` as the new writehead, and a `get` on the
returned record yields exactly the written bytes.  The S1 scenario holds:
after an ephemeral open, writing "hello word" then "hello world!" and
reading back both records returns the two byte strings unchanged. -/
theorem c3_appendonly_write_get_roundtrip :
    (∀ (INIT : Nat) (hI : 0 < INIT) (st : AppendOnly.AOState)
      (data : List Nat) (lane inner : Nat),
      0 < data.length →
      DiskBytes.lane_nr_and_ofs INIT
          (DiskBytes.find_space_for INIT hI st.writehead data.length)
        = (lane, inner) →
      ∀ l, st.bytes.lanes.get? lane = some l →
      (∀ bytes, l = some bytes →
        bytes.length = DiskBytes.lane_size INIT lane) →
      ∃ st2,
        AppendOnly.write INIT hI st data
          = .ok (st2,
              ⟨DiskBytes.find_space_for INIT hI st.writehead data.length,
                data.length, st.tag⟩) ∧
        st2.writehead
          = DiskBytes.find_space_for INIT hI st.writehead data.length
            + data.length ∧
        st2.tag = st.tag ∧
        AppendOnly.get INIT st2
            ⟨DiskBytes.find_space_for INIT hI st.writehead data.length,
              data.length, st.tag⟩
          = .ok data) ∧
    AppendOnly.write 1024 INIT1024_pos AppendOnly.scenario_st0
        AppendOnly.msgA
      = .ok (AppendOnly.scenario_st1, ⟨0, 10, 42⟩) ∧
    AppendOnly.write 1024 INIT1024_pos AppendOnly.scenario_st1
        AppendOnly.msgB
      = .ok (AppendOnly.scenario_st2, ⟨10, 12, 42⟩) ∧
    AppendOnly.get 1024 AppendOnly.scenario_st2 ⟨0, 10, 42⟩
      = .ok AppendOnly.msgA ∧
    AppendOnly.get 1024 AppendOnly.scenario_st2 ⟨10, 12, 42⟩
      = .ok AppendOnly.msgB := by
  refine ⟨?_, AppendOnly.scenario_write_1, AppendOnly.scenario_write_2,
    AppendOnly.scenario_get_0, AppendOnly.scenario_get_1⟩
  intro INIT hI st data lane inner hlen hdec l hlane hl
  obtain ⟨hge, hfit, _hsame, _hmin⟩ :=
    DiskBytes.find_space_for_spec INIT hI st.writehead data.length
  rw [hdec] at hfit
  obtain ⟨newbytes, hw, _hnlen, hread⟩ :=
    DiskBytes.write_bytes_read_roundtrip INIT st.bytes
      (DiskBytes.find_space_for INIT hI st.writehead data.length) data
      lane inner hdec hfit l hlane hl
  refine ⟨⟨⟨st.bytes.lanes.set lane (some newbytes)⟩,
    DiskBytes.find_space_for INIT hI st.writehead data.length
      + data.length, st.tag⟩, ?_, rfl, rfl, ?_⟩
  · simp only [AppendOnly.write]
    rw [if_pos (by omega), hw]
  · simp only [AppendOnly.get]
    rw [if_pos trivial, hread]

/-- Witness for C3: the general roundtrip applied to the concrete first
write of the S1 scenario. -/
theorem c3_appendonly_write_get_roundtrip_witness :
    ∃ st2,
      AppendOnly.write 1024 INIT1024_pos AppendOnly.scenario_st0
          AppendOnly.msgA
        = .ok (st2,
            ⟨DiskBytes.find_space_for 1024 INIT1024_pos
                AppendOnly.scenario_st0.writehead AppendOnly.msgA.length,
              AppendOnly.msgA.length, AppendOnly.scenario_st0.tag⟩) ∧
      st2.writehead
        = DiskBytes.find_space_for 1024 INIT1024_pos
            AppendOnly.scenario_st0.writehead AppendOnly.msgA.length
          + AppendOnly.msgA.length ∧
      st2.tag = AppendOnly.scenario_st0.tag ∧
      AppendOnly.get 1024 st2
          ⟨DiskBytes.find_space_for 1024 INIT1024_pos
              AppendOnly.scenario_st0.writehead AppendOnly.msgA.length,
            AppendOnly.msgA.length, AppendOnly.scenario_st0.tag⟩
        = .ok AppendOnly.msgA :=
  c3_appendonly_write_get_roundtrip.1 1024 INIT1024_pos
    AppendOnly.scenario_st0 AppendOnly.msgA 0 0 (by decide)
    (by rw [show DiskBytes.find_space_for 1024 INIT1024_pos
          AppendOnly.scenario_st0.writehead AppendOnly.msgA.length = 0 from
        AppendOnly.fs_scenario_1]
        exact AppendOnly.lane_dec_0)
    none rfl (by intro bytes h; cases h)

/-- C9 (amended): writing a zero-valued record into an array slot is NOT
caught: `with_mut` with a closure that stores `T::zeroed()` returns
normally (`Ok`), and the zero value is silently stored — a subsequent
`get(index)` returns `None` because the slot now reads as the all-zero
"empty" sentinel. -/
theorem c9_with_mut_zero_returns_normally (INIT tsize : Nat)
    (st : DiskBytes.State) (index : Nat) (lane inner : Nat)
    (hdec : DiskBytes.lane_nr_and_ofs INIT (index * tsize) = (lane, inner))
    (hfit : inner + tsize ≤ DiskBytes.lane_size INIT lane)
    (l : Option (List Nat)) (hlane : st.lanes.get? lane = some l)
    (hl : ∀ bytes, l = some bytes →
      bytes.length = DiskBytes.lane_size INIT lane) :
    ∃ st2, RandomAccess.with_mut INIT tsize st index
        (fun _ => List.replicate tsize 0) = .ok st2 ∧
      RandomAccess.get INIT tsize st2 index = none := by
  obtain ⟨newbytes, hw, _hnlen, hread⟩ :=
    DiskBytes.write_bytes_read_roundtrip INIT st (index * tsize)
      (List.replicate tsize 0) lane inner hdec (by simpa using hfit)
      l hlane hl
  refine ⟨⟨st.lanes.set lane (some newbytes)⟩, ?_, ?_⟩
  · rw [RandomAccess.with_mut_const_eq_write_bytes INIT tsize st index _
      (by simp)]
    exact hw
  · have hread2 : DiskBytes.read INIT ⟨st.lanes.set lane (some newbytes)⟩
        (index * tsize) tsize = some (List.replicate tsize 0) := by
      simpa using hread
    simp only [RandomAccess.get]
    rw [hread2]
    simp [RandomAccess.is_all_zeroes_replicate]

/-- Witness for C9 at `INIT = 1024`, `tsize = 8`, slot 0 of a fresh
ephemeral arena. -/
theorem c9_with_mut_zero_returns_normally_witness :
    ∃ st2, RandomAccess.with_mut 1024 8 DiskBytes.ephemeral 0
        (fun _ => List.replicate 8 0) = .ok st2 ∧
      RandomAccess.get 1024 8 st2 0 = none :=
  c9_with_mut_zero_returns_normally 1024 8 DiskBytes.ephemeral 0 0 0
    (@DiskBytes.lane_nr_and_ofs_eval 1024 0 0 (0 * 8) (by decide)
      (by decide) (by decide))
    (by decide) none rfl (by intro bytes h; cases h)

/-- Counterexample for C9 as literally stated: `with_mut(0, f)` with a
closure that stores `T::zeroed()` (for an 8-byte `T`, on a fresh ephemeral
arena) DOES return normally — the library neither halts nor panics on a
zero-valued store. -/
theorem c9_with_mut_zero_counterexample :
    RandomAccess.with_mut 1024 8 DiskBytes.ephemeral 0
        (fun _ => List.replicate 8 0)
      = .ok ⟨(List.replicate 32 (none : Option (List Nat))).set 0
          (some (List.replicate 1024 0))⟩ := by
  rw [RandomAccess.with_mut_const_eq_write_bytes 1024 8 DiskBytes.ephemeral
    0 (List.replicate 8 0) (by simp)]
  simp only [DiskBytes.write_bytes,
    @DiskBytes.lane_nr_and_ofs_eval 1024 0 0 (0 * 8) (by decide)
      (by decide) (by decide)]
  rfl

/-- C10: `AppendOnly::get` never silently dereferences a foreign record:
when the record's tag differs from the store's entropy-derived tag the call
panics ("Usage of record issued in another path!"); when the tag matches
but the `(offset, length)` range is not readable from the arena it panics
("invalid record!"); and whenever it returns bytes, the tag matched and the
bytes are exactly what the arena holds for that range. -/
theorem c10_get_tag_guard (INIT : Nat) (st : AppendOnly.AOState)
    (r : AppendOnly.Record) :
    (r.tag ≠ st.tag → AppendOnly.get INIT st r = .panicTag) ∧
    (r.tag = st.tag →
      DiskBytes.read INIT st.bytes r.offset r.length = none →
      AppendOnly.get INIT st r = .panicInvalid) ∧
    (∀ data, AppendOnly.get INIT st r = .ok data →
      r.tag = st.tag ∧
      DiskBytes.read INIT st.bytes r.offset r.length = some data) := by
  refine ⟨?_, ?_, ?_⟩
  · intro h
    simp only [AppendOnly.get]
    rw [if_neg h]
  · intro h hread
    simp only [AppendOnly.get]
    rw [if_pos h, hread]
  · intro data h
    by_cases ht : r.tag = st.tag
    · refine ⟨ht, ?_⟩
      simp only [AppendOnly.get] at h
      rw [if_pos ht] at h
      cases hread : DiskBytes.read INIT st.bytes r.offset r.length with
      | some d =>
        rw [hread] at h
        have h2 : AppendOnly.GetResult.ok d = .ok data := h
        injection h2 with h3
        rw [h3]
      | none =>
        rw [hread] at h
        have h2 : AppendOnly.GetResult.panicInvalid = .ok data := h
        exact AppendOnly.GetResult.noConfusion h2
    · simp only [AppendOnly.get] at h
      rw [if_neg ht] at h
      exact AppendOnly.GetResult.noConfusion h

/-- Witness for C10: on a fresh ephemeral store with tag 42, a record with
tag 7 panics on the tag check, and a matching-tag record whose range was
never written panics as invalid. -/
theorem c10_get_tag_guard_witness :
    AppendOnly.get 1024 ⟨DiskBytes.ephemeral, 0, 42⟩ ⟨0, 5, 7⟩
      = .panicTag ∧
    AppendOnly.get 1024 ⟨DiskBytes.ephemeral, 0, 42⟩ ⟨0, 5, 42⟩
      = .panicInvalid := by
  constructor
  · exact (c10_get_tag_guard 1024 ⟨DiskBytes.ephemeral, 0, 42⟩
      ⟨0, 5, 7⟩).1 (by decide)
  · refine (c10_get_tag_guard 1024 ⟨DiskBytes.ephemeral, 0, 42⟩
      ⟨0, 5, 42⟩).2.1 rfl ?_
    simp only [DiskBytes.read, AppendOnly.lane_dec_0]
    rfl

namespace SearchPattern

/-- `INITIAL_FANOUT` (src/src/structures/smash.rs). -/
def INITIAL_FANOUT : Nat := 1024

/-- `SearchPattern` (src/src/structures/smash.rs) without the borrowed
entropy source, which is passed to the step function instead. -/
structure SP where
  entropy_state : Nat
  fanout : Nat
  offset : Nat
  retries : Nat
  tries_limit : Nat
deriving DecidableEq

/-- `SearchPattern::new`: seed the state with `entropy.checksum(key)` (the
checksum is the function parameter `σ`). -/
def new (σ : Nat → Nat) (key : Nat) : SP :=
  ⟨σ key, INITIAL_FANOUT, 0, 0, 1⟩

/-- `SearchPattern::get_slot` (src/src/structures/smash.rs, lines 98-105):
`offset + (entropy_state % fanout) + retries`. -/
def get_slot (sp : SP) : Nat :=
  sp.offset + sp.entropy_state % sp.fanout + sp.retries

/-- `SearchPattern::calculate_next` (src/src/structures/smash.rs, lines
107-117): bump `retries`; when the band's tries are exhausted move the
offset past the band, double fanout and tries, re-seed the state with
`entropy.checksum(state)` and reset `retries`. -/
def calculate_next (σ : Nat → Nat) (sp : SP) : SP :=
  let retries := sp.retries + 1
  if retries = sp.tries_limit then
    { entropy_state := σ sp.entropy_state,
      fanout := sp.fanout * 2,
      offset := sp.offset + sp.fanout,
      retries := 0,
      tries_limit := sp.tries_limit * 2 }
  else
    { sp with retries := retries }

/-- The search pattern after `m` calls of `calculate_next`, i.e. at the
`m`-th probe (0-based) of the walk shared by `SmashMap::insert` and
`SmashMap::get`. -/
def iter (σ : Nat → Nat) (key : Nat) : Nat → SP
  | 0 => new σ key
  | m + 1 => calculate_next σ (iter σ key m)

/-- The pattern state in band `n` at retry `r`: offset `(2^n - 1) * F₀`,
fanout (band size) `2^n * F₀`, tries `2^n`, and the state re-seeded `n`
times. -/
def bandSP (σ : Nat → Nat) (key n r : Nat) : SP :=
  ⟨Nat.iterate σ n (σ key), 2 ^ n * INITIAL_FANOUT,
    (2 ^ n - 1) * INITIAL_FANOUT, r, 2 ^ n⟩

theorem step_in (σ : Nat → Nat) (key n r : Nat) (h : r + 1 < 2 ^ n) :
    calculate_next σ (bandSP σ key n r) = bandSP σ key n (r + 1) := by
  rw [calculate_next, bandSP]
  rw [if_neg (by simp only []; omega)]
  rfl

theorem step_boundary (σ : Nat → Nat) (key n : Nat) :
    calculate_next σ (bandSP σ key n (2 ^ n - 1))
      = bandSP σ key (n + 1) 0 := by
  have hp : 0 < (2 : Nat) ^ n := Nat.pos_pow_of_pos _ (by omega)
  rw [calculate_next, bandSP]
  rw [if_pos (by simp only []; omega)]
  rw [bandSP, SP.mk.injEq]
  refine ⟨(Function.iterate_succ_apply' σ n (σ key)).symm, by ring, ?_,
    rfl, by ring⟩
  have h1 : (2 ^ n - 1) * INITIAL_FANOUT + 2 ^ n * INITIAL_FANOUT
      = (2 ^ n - 1 + 2 ^ n) * INITIAL_FANOUT := (Nat.add_mul _ _ _).symm
  have h2 : 2 ^ n - 1 + 2 ^ n = 2 ^ (n + 1) - 1 := by
    have : (2 : Nat) ^ (n + 1) = 2 ^ n * 2 := by ring
    omega
  rw [h1, h2]

/-- The probe walk visits band `n` exactly at probes
`2^n - 1, ..., 2^n - 1 + (2^n - 1)`, with the band-`n` pattern state. -/
theorem iter_band (σ : Nat → Nat) (key : Nat) :
    ∀ n r, r < 2 ^ n → iter σ key (2 ^ n - 1 + r) = bandSP σ key n r := by
  intro n
  induction n with
  | zero =>
    intro r hr
    have hr0 : r = 0 := by omega
    subst hr0
    rfl
  | succ n ih =>
    have hbase : iter σ key (2 ^ (n + 1) - 1) = bandSP σ key (n + 1) 0 := by
      have h2 : (2 : Nat) ^ (n + 1) = 2 * 2 ^ n := by ring
      have hp : 0 < (2 : Nat) ^ n := Nat.pos_pow_of_pos _ (by omega)
      have harith : 2 ^ (n + 1) - 1 = (2 ^ n - 1 + (2 ^ n - 1)) + 1 := by
        omega
      rw [harith]
      show calculate_next σ (iter σ key (2 ^ n - 1 + (2 ^ n - 1)))
        = bandSP σ key (n + 1) 0
      rw [ih (2 ^ n - 1) (by omega)]
      exact step_boundary σ key n
    intro r
    induction r with
    | zero =>
      intro _
      simpa using hbase
    | succ r ihr =>
      intro hr
      have harith : 2 ^ (n + 1) - 1 + (r + 1)
          = (2 ^ (n + 1) - 1 + r) + 1 := by omega
      rw [harith]
      show calculate_next σ (iter σ key (2 ^ (n + 1) - 1 + r))
        = bandSP σ key (n + 1) (r + 1)
      rw [ihr (by omega)]
      exact step_in σ key (n + 1) r (by omega)

end SearchPattern

/-- C6 (amended): the probe walk shared by `SmashMap::insert` and
`SmashMap::get` probes, in band `n` (offset `(2^n - 1)·F₀`, size
`2^n·F₀`, tries `2^n`, state re-seeded `n` times via
`state ← entropy.checksum(state)`), the indices
`offset + (state mod size) + retry` for `retry ∈ [0, tries)` — the retry is
ADDED AFTER the modulus, so a probe can exceed the band's end by up to
`tries - 1` slots; every probed index is below
`offset + size + tries`. -/
theorem c6_smashmap_probe_walk (σ : Nat → Nat) (key n r : Nat)
    (hr : r < 2 ^ n) :
    SearchPattern.iter σ key (2 ^ n - 1 + r)
      = SearchPattern.bandSP σ key n r ∧
    SearchPattern.get_slot (SearchPattern.iter σ key (2 ^ n - 1 + r))
      = (2 ^ n - 1) * SearchPattern.INITIAL_FANOUT
        + Nat.iterate σ n (σ key) % (2 ^ n * SearchPattern.INITIAL_FANOUT)
        + r ∧
    SearchPattern.get_slot (SearchPattern.iter σ key (2 ^ n - 1 + r))
      < (2 ^ n - 1) * SearchPattern.INITIAL_FANOUT
        + 2 ^ n * SearchPattern.INITIAL_FANOUT + 2 ^ n := by
  have hb := SearchPattern.iter_band σ key n r hr
  have hfpos : 0 < 2 ^ n * SearchPattern.INITIAL_FANOUT :=
    Nat.mul_pos (Nat.pos_pow_of_pos _ (by omega)) (by decide)
  have hmod : Nat.iterate σ n (σ key) % (2 ^ n * SearchPattern.INITIAL_FANOUT)
      < 2 ^ n * SearchPattern.INITIAL_FANOUT :=
    Nat.mod_lt _ hfpos
  refine ⟨hb, ?_, ?_⟩
  · rw [hb]
    rfl
  · rw [hb]
    show (2 ^ n - 1) * SearchPattern.INITIAL_FANOUT
        + Nat.iterate σ n (σ key) % (2 ^ n * SearchPattern.INITIAL_FANOUT)
        + r
      < (2 ^ n - 1) * SearchPattern.INITIAL_FANOUT
        + 2 ^ n * SearchPattern.INITIAL_FANOUT + 2 ^ n
    omega

/-- Witness for C6 in band 1, retry 1, with a concrete checksum model. -/
theorem c6_smashmap_probe_walk_witness :
    SearchPattern.iter (fun _ => 2047) 0 (2 ^ 1 - 1 + 1)
      = SearchPattern.bandSP (fun _ => 2047) 0 1 1 ∧
    SearchPattern.get_slot (SearchPattern.iter (fun _ => 2047) 0
        (2 ^ 1 - 1 + 1))
      = (2 ^ 1 - 1) * SearchPattern.INITIAL_FANOUT
        + Nat.iterate (fun _ => 2047) 1 ((fun _ => 2047) 0)
            % (2 ^ 1 * SearchPattern.INITIAL_FANOUT) + 1 ∧
    SearchPattern.get_slot (SearchPattern.iter (fun _ => 2047) 0
        (2 ^ 1 - 1 + 1))
      < (2 ^ 1 - 1) * SearchPattern.INITIAL_FANOUT
        + 2 ^ 1 * SearchPattern.INITIAL_FANOUT + 2 ^ 1 :=
  c6_smashmap_probe_walk (fun _ => 2047) 0 1 1 (by decide)

/-- Counterexample for C6 as literally stated: the claim's formula is
`offset + (state + retry) mod size` with every probed index inside the
band.  With `entropy.checksum` constantly 2047, the third probe (band 1,
retry 1) hits index `1024 + (2047 % 2048) + 1 = 3072`, while the claim's
formula gives `1024 + (2047 + 1) % 2048 = 1024`; index 3072 lies outside
band 1, whose slots are `[1024, 3072)`. -/
theorem c6_band_overflow_counterexample :
    SearchPattern.get_slot (SearchPattern.iter (fun _ => 2047) 0 2)
      = 3072 ∧
    1024 + (2047 + 1) % 2048 = 1024 ∧
    ¬ (3072 < 1024 + 2048) :=
  ⟨rfl, by decide, by decide⟩

namespace LandfillDisk

/-- An abstract mapped file: the claimed full name and the size the file
was set to. -/
structure MappedFile where
  full_name : String
  size : Nat
deriving DecidableEq

/-- The name-claiming state of a `Landfill` (src/src/disk/mod.rs): the
`reserved_names` set and this handle's name prefix (`full_name()` returns
the prefix itself).  The filesystem side of `map_file_create` is modelled
abstractly by the returned `MappedFile`. -/
structure State where
  reserved_names : List String
  prefixName : String
deriving DecidableEq

/-- `Landfill::register_name` (src/src/disk/mod.rs): insert into the
reserved-name set; `true` iff the name was not present before. -/
def register_name (st : State) (name : String) : Bool × State :=
  if name ∈ st.reserved_names then (false, st)
  else (true, ⟨name :: st.reserved_names, st.prefixName⟩)

/-- `Landfill::map_file_create` (src/src/disk/mod.rs, lines 206-237).  The
source reads `if !self.register_name(self.full_name()) { open/map ... }
else { Ok(None) }`: it opens, sets the length and maps the file precisely
when the insert FAILED (the name was already claimed), and returns `None`
when the insert succeeded — the inverse of its own doc comment
("Returns `None` if the file has already been mapped"). -/
def map_file_create (st : State) (size : Nat) : Option MappedFile × State :=
  let p := register_name st st.prefixName
  if ¬ p.1 then (some ⟨st.prefixName, size⟩, p.2)
  else (none, p.2)

end LandfillDisk

namespace LandfillOld

/-- The name-claiming state of the older `Landfill` (src/src/landfill.rs):
the `already_mapped` set and the name prefix. -/
structure State where
  already_mapped : List String
  prefixName : String
deriving DecidableEq

/-- `join_names` (src/src/landfill.rs): concatenate with `_`, skipping the
separator when the first part is empty. -/
def join_names (name1 name2 : String) : String :=
  if name1.length = 0 then name2 else name1 ++ "_" ++ name2

/-- `Landfill::map_file_inner` (src/src/landfill.rs, lines 98-151): return
`None` when the full name is already claimed; otherwise open the file
(`(create, exists)`: `(false, false)` returns `None`, any other combination
opens or creates), set its length, map it, and only then register the
name.  `exists_on_disk` models `full_path.exists()`. -/
def map_file_inner (st : State) (name : String) (size : Nat)
    (create : Bool) (exists_on_disk : Bool) :
    Option LandfillDisk.MappedFile × State :=
  let full_name := join_names st.prefixName name
  if full_name ∈ st.already_mapped then (none, st)
  else
    match create, exists_on_disk with
    | false, false => (none, st)
    | _, _ => (some ⟨full_name, size⟩,
        ⟨full_name :: st.already_mapped, st.prefixName⟩)

end LandfillOld

/-- C2: the claim says `map_file_create` first claims the name and returns
`None` (fail-soft) when the name had already been claimed, mapping the
file only on a fresh claim.  The code of src/src/disk/mod.rs does the
OPPOSITE — `if !self.register_name(...)` maps when the insert failed — so
on a fresh landfill the FIRST call returns `None` and the second call
returns the mapping; the older variant (src/src/landfill.rs,
`map_file_inner`) implements exactly the claimed behavior (first call maps,
second call returns `None`). -/
theorem c2_map_file_create_inverted_guard :
    (LandfillDisk.map_file_create ⟨[], "00"⟩ 4096).1 = none ∧
    (LandfillDisk.map_file_create
        (LandfillDisk.map_file_create ⟨[], "00"⟩ 4096).2 4096).1
      = some ⟨"00", 4096⟩ ∧
    (LandfillOld.map_file_inner ⟨[], ""⟩ "00" 4096 true false).1
      = some ⟨"00", 4096⟩ ∧
    (LandfillOld.map_file_inner
        (LandfillOld.map_file_inner ⟨[], ""⟩ "00" 4096 true false).2
        "00" 4096 true true).1 = none := by
  refine ⟨?_, ?_, ?_, ?_⟩ <;> decide
